import Mathlib

/-!
Shallow embedding of the LST options screener (`lst_screener_api.py`).

Modelling conventions:
* Python floats are modelled as exact rationals (`ℚ`); `round(x, n)` and the
  `:.2f` format rounding are modelled as exact round-half-to-even on `ℚ`.
* Upstream HTTP behaviour is an explicit environment `Env`: each endpoint's
  response is a constructor of a response type.  The `err` constructors model
  every response on which the Python parsing raises (network error, non-2xx
  status via `raise_for_status`, malformed JSON, or a field that fails float
  conversion); the `missing` constructors model a 2xx JSON body that lacks the
  expected field.  Date parsing (`strptime`) plus the clock are abstracted
  into a total whole-day-difference function `Env.dte`; date strings are
  assumed well formed.
* Python code that can raise is embedded in `Except String`; a `try/except`
  block becomes a `match` on that result.  A function embedded as a total
  Lean function therefore cannot raise, which is the model of "never
  propagates an exception to its caller".
* Python's `list.sort(key=..., reverse=True)` is a stable descending sort,
  modelled by `List.mergeSort` with the reversed comparison.
-/

/-- Round-half-to-even to the nearest integer, as Python's `round` and string
formatting behave on the exact value. -/
def rnd (q : ℚ) : ℤ :=
  if Int.fract q = 1/2 then (if 2 ∣ ⌊q⌋ then ⌊q⌋ else ⌊q⌋ + 1) else round q

/-- Python `round(x, 2)` on the exact rational value. -/
def round2 (q : ℚ) : ℚ := (rnd (q * 100) : ℚ) / 100

/-- Python `round(x, 3)` on the exact rational value. -/
def round3 (q : ℚ) : ℚ := (rnd (q * 1000) : ℚ) / 1000

/-- A stock quote as normalized by `get_stock_quote` (fields `last`, `volume`,
`description`, `symbol` with their Python defaults already applied). -/
structure StockQuote where
  price : ℚ
  volume : ℚ
  description : String
  symbol : String

/-- The per-contract `greeks` object; only the two fields the screener reads
are modelled, each `Option` because the upstream may omit it.  An absent or
empty (falsy) greeks dict is modelled as `none` at the contract level. -/
structure Greeks where
  delta : Option ℚ
  mid_iv : Option ℚ

/-- One option contract from a chain response, with the Python `get` defaults
already applied to the numeric fields. -/
structure OptionContract where
  option_type : String
  strike : ℚ
  bid : ℚ
  ask : ℚ
  open_interest : ℤ
  greeks : Option Greeks

/-- One opportunity dict built by `find_lst_put_opportunities`. -/
structure Opportunity where
  expiration : String
  dte : ℤ
  strike : ℚ
  delta : ℚ
  bid : ℚ
  ask : ℚ
  mid_price : ℚ
  premium_per_contract : ℚ
  capital_at_risk : ℚ
  return_pct : ℚ
  distance_from_price_pct : ℚ
  open_interest : ℤ
  bid_ask_spread : ℚ
  implied_volatility : ℚ

/-- Response of the quotes endpoint: `err` models any response on which the
Python parsing raises (transport error, non-2xx, malformed payload), `missing`
a body without the `quotes.quote` field. -/
inductive QuoteResp where
  | err (msg : String)
  | missing
  | ok (q : StockQuote)

/-- Response of the expirations endpoint; `single` models the upstream
returning one scalar date instead of a list. -/
inductive ExpResp where
  | err (msg : String)
  | missing
  | single (s : String)
  | many (ss : List String)

/-- Response of the chains endpoint for one expiration; `err` models any
response on which the Python parsing raises, `missing` a body without the
`options.option` field, `single` a scalar contract instead of a list. -/
inductive ChainResp where
  | err (msg : String)
  | missing
  | single (c : OptionContract)
  | many (cs : List OptionContract)

/-- The contracts carried by a chain response, after the single-vs-list
normalization (empty for the failure shapes). -/
def ChainResp.contracts : ChainResp → List OptionContract
  | .err _ => []
  | .missing => []
  | .single c => [c]
  | .many cs => cs

/-- The upstream world one screening call runs against: the three endpoint
responses, the abstracted date arithmetic, and an optional unexpected
exception injected into the body of `screen_stock_for_lst` (modelling the
fault its outer `try/except` guards against). -/
structure Env where
  quote : QuoteResp
  expirations : ExpResp
  dte : String → ℤ
  chain : String → ChainResp
  screenFault : Option String

/-- Embedding of `get_stock_quote`: totality of this function is the model of
its catch-all `except` (it never raises to its caller). -/
def get_stock_quote (env : Env) : Option StockQuote :=
  match env.quote with
  | .err _ => none
  | .missing => none
  | .ok q => some q

/-- Embedding of `get_options_expirations`, including the scalar-to-list
normalization; failures collapse to the empty list. -/
def get_options_expirations (env : Env) : List String :=
  match env.expirations with
  | .err _ => []
  | .missing => []
  | .single s => [s]
  | .many ss => ss

/-- The `(date, days_to_exp)` pairs with 30 ≤ DTE ≤ 45, in upstream order, as
built by the filtering loop of `find_lst_put_opportunities`. -/
def suitable_expirations (env : Env) : List (String × ℤ) :=
  (get_options_expirations env).filterMap fun s =>
    let d := env.dte s
    if 30 ≤ d ∧ d ≤ 45 then some (s, d) else none

/-- The opportunity dict built for one put that passed the delta filter
(`d0` is the raw signed delta, `g` the contract's greeks). -/
def mk_opportunity (exp_date : String) (d : ℤ) (price : ℚ) (c : OptionContract)
    (d0 : ℚ) (g : Greeks) : Opportunity :=
  let delta := |d0|
  let mid := (c.bid + c.ask) / 2
  let capital := c.strike * 100
  let premium := mid * 100
  let rp := if capital > 0 then premium / capital * 100 else 0
  { expiration := exp_date
    dte := d
    strike := round2 c.strike
    delta := round3 delta
    bid := round2 c.bid
    ask := round2 c.ask
    mid_price := round2 mid
    premium_per_contract := round2 premium
    capital_at_risk := round2 capital
    return_pct := round2 rp
    distance_from_price_pct := round2 ((price - c.strike) / price * 100)
    open_interest := c.open_interest
    bid_ask_spread := round2 (c.ask - c.bid)
    implied_volatility := round2 ((g.mid_iv.getD 0) * 100) }

/-- The delta loop of `find_lst_put_opportunities` over an already
puts-filtered contract list.  Contracts without greeks or without a delta are
skipped; a put inside the delta band at `price = 0` raises Python's
`ZeroDivisionError` on the distance-from-price division. -/
def put_band_opps (exp_date : String) (d : ℤ) (price : ℚ) :
    List OptionContract → Except String (List Opportunity)
  | [] => .ok []
  | c :: rest =>
    match c.greeks with
    | none => put_band_opps exp_date d price rest
    | some g =>
      match g.delta with
      | none => put_band_opps exp_date d price rest
      | some d0 =>
        if 0.20 ≤ |d0| ∧ |d0| ≤ 0.30 then
          if price = 0 then .error "float division by zero"
          else
            match put_band_opps exp_date d price rest with
            | .error msg => .error msg
            | .ok os => .ok (mk_opportunity exp_date d price c d0 g :: os)
        else put_band_opps exp_date d price rest

/-- Processing of one suitable expiration inside `find_lst_put_opportunities`:
fetch the chain (a raising fetch propagates), skip a body without the
`options.option` field, normalize scalar-vs-list, filter to puts and run the
delta loop. -/
def chain_opps (env : Env) (price : ℚ) (s : String) (d : ℤ) :
    Except String (List Opportunity) :=
  match env.chain s with
  | .err msg => .error msg
  | .missing => .ok []
  | .single c => put_band_opps s d price ([c].filter fun c => c.option_type == "put")
  | .many cs => put_band_opps s d price (cs.filter fun c => c.option_type == "put")

/-- The loop over the (at most two) suitable expirations, accumulating the
collected opportunities in order; the first raising chain fetch aborts the
whole loop. -/
def collect_opps (env : Env) (price : ℚ) :
    List (String × ℤ) → Except String (List Opportunity)
  | [] => .ok []
  | sd :: rest =>
    match chain_opps env price sd.1 sd.2 with
    | .error msg => .error msg
    | .ok l =>
      match collect_opps env price rest with
      | .error msg => .error msg
      | .ok r => .ok (l ++ r)

/-- Comparison used for the final sort: descending by `return_pct`
(`reverse=True`, stable). -/
def opp_le (a b : Opportunity) : Bool := decide (b.return_pct ≤ a.return_pct)

/-- Embedding of `find_lst_put_opportunities`: its outer catch-all `except`
turns any raised exception into the empty list. -/
def find_lst_put_opportunities (env : Env) (price : ℚ) : List Opportunity :=
  if (get_options_expirations env).isEmpty then []
  else if (suitable_expirations env).isEmpty then []
  else
    match collect_opps env price ((suitable_expirations env).take 2) with
    | .error _ => []
    | .ok l => l.mergeSort opp_le

/-- The selection loop of `get_stock_iv`: scan the expirations in order,
keeping the in-range one whose DTE is closest to 37 together with that
distance; a strictly smaller distance replaces the current best, so the first
encountered wins ties. -/
def iv_scan (dte : String → ℤ) : List String → Option (String × ℤ) → Option (String × ℤ)
  | [], acc => acc
  | s :: rest, acc =>
    let d := dte s
    if 30 ≤ d ∧ d ≤ 45 then
      let diff := |d - 37|
      match acc with
      | none => iv_scan dte rest (some (s, diff))
      | some bm =>
        if diff < bm.2 then iv_scan dte rest (some (s, diff))
        else iv_scan dte rest (some bm)
    else iv_scan dte rest acc

/-- The averaging part of `get_stock_iv` over a normalized chain: filter to
puts, keep each `mid_iv` of a put struck within 90–110% of the price when the
greeks carry one inside the sane band, and return the rounded mean percent. -/
def iv_mean_of (price : ℚ) (cs : List OptionContract) : Option ℚ :=
  let puts := cs.filter fun c => c.option_type == "put"
  let ivs := puts.filterMap fun c =>
    if 0.90 * price ≤ c.strike ∧ c.strike ≤ 1.10 * price then
      match c.greeks with
      | none => none
      | some g =>
        match g.mid_iv with
        | none => none
        | some v => if 0.05 ≤ v ∧ v ≤ 2.0 then some v else none
    else none
  if ivs.isEmpty then none else some (round2 (ivs.sum / ivs.length * 100))

/-- Embedding of `get_stock_iv`; the catch-all `except` turns a raising chain
fetch into `none`. -/
def get_stock_iv (env : Env) (price : ℚ) : Option ℚ :=
  let exps := get_options_expirations env
  if exps.isEmpty then none
  else
    match iv_scan env.dte exps none with
    | none => none
    | some bm =>
      match env.chain bm.1 with
      | .err _ => none
      | .missing => none
      | .single c => iv_mean_of price [c]
      | .many cs => iv_mean_of price cs

/-- Spec-side chain fetch (section 4.1 of the spec): any upstream or transport
failure is absorbed at the gateway boundary into an empty contract sequence,
and a scalar body is normalized to a one-element sequence. -/
def spec_fetch_chain (env : Env) (s : String) : List OptionContract :=
  match env.chain s with
  | .err _ => []
  | .missing => []
  | .single c => [c]
  | .many cs => cs

/-- Spec-side expiration choice for the IV estimate: among expirations with
DTE in [30, 45], the one whose DTE is closest to 37, first encountered
winning ties (`List.argmin` keeps the earliest strict minimum). -/
def spec_pick_expiration (dte : String → ℤ) (exps : List String) : Option String :=
  (exps.filter fun s => decide (30 ≤ dte s ∧ dte s ≤ 45)).argmin fun s => |dte s - 37|

/-- Spec-side `estimateImpliedVolatility`, written from the spec's own words:
pick the expiration closest to 37 DTE (absent if none in range), fetch its
chain through the absorbing gateway, filter to puts struck within
[0.90, 1.10] of the price, collect the sane implied-volatility values, and
return the mean as a rounded percentage (absent if nothing was collected). -/
def spec_estimate_implied_volatility (env : Env) (price : ℚ) : Option ℚ :=
  match spec_pick_expiration env.dte (get_options_expirations env) with
  | none => none
  | some best =>
    let puts := (spec_fetch_chain env best).filter fun c => c.option_type == "put"
    let window := puts.filter fun c =>
      decide (0.90 * price ≤ c.strike ∧ c.strike ≤ 1.10 * price)
    let ivs := window.filterMap fun c =>
      match c.greeks with
      | none => none
      | some g =>
        match g.mid_iv with
        | none => none
        | some v => if 0.05 ≤ v ∧ v ≤ 2.0 then some v else none
    if ivs.isEmpty then none else some (round2 (ivs.sum / ivs.length * 100))

/-- Python `:.2f` fixed-point formatting of the exact value. -/
def fmt2 (q : ℚ) : String :=
  let n := rnd (q * 100)
  let a := n.natAbs
  (if n < 0 then "-" else "") ++ toString (a / 100) ++ "." ++
    (if a % 100 < 10 then "0" else "") ++ toString (a % 100)

/-- Python `:.1f` fixed-point formatting of the exact value. -/
def fmt1 (q : ℚ) : String :=
  let n := rnd (q * 10)
  let a := n.natAbs
  (if n < 0 then "-" else "") ++ toString (a / 10) ++ "." ++ toString (a % 10)

/-- Python's `str` of an already 2-decimal-rounded float, as interpolated into
the IV status strings (trailing zeros dropped, whole numbers shown as `x.0`). -/
def floatRepr2 (q : ℚ) : String :=
  let n := rnd (q * 100)
  let a := n.natAbs
  let frac := a % 100
  (if n < 0 then "-" else "") ++ toString (a / 100) ++ "." ++
    (if frac = 0 then "0"
     else if frac % 10 = 0 then toString (frac / 10)
     else if frac < 10 then "0" ++ toString frac
     else toString frac)

/-- The IV classification ladder of `screen_stock_for_lst`: status text and
whether the IV check passed. -/
def iv_classify : Option ℚ → String × Bool
  | none => ("Unable to calculate IV", false)
  | some iv =>
    if iv < 25 then ("IV " ++ floatRepr2 iv ++ "% below LST minimum (25%)", false)
    else if iv > 45 then ("IV " ++ floatRepr2 iv ++ "% above LST maximum (45%)", false)
    else ("IV " ++ floatRepr2 iv ++ "% in LST range (25-45%)", true)

/-- The screening result dict; every field that some branch leaves out is an
`Option`, and the `iv` field distinguishes an absent key from a present key
holding Python's `None`. -/
structure ScreeningResult where
  ticker : String
  qualified : Bool
  reason : Option String
  price : Option ℚ
  volume_millions : Option ℚ
  iv : Option (Option ℚ)
  iv_status : Option String
  description : Option String
  best_opportunity : Option Opportunity
  total_opportunities : Option ℕ
  all_opportunities : Option (List Opportunity)

/-- A result dict with only `ticker` and `qualified`; the branches extend it. -/
def base_result (t : String) (q : Bool) : ScreeningResult :=
  { ticker := t, qualified := q, reason := none, price := none
    volume_millions := none, iv := none, iv_status := none, description := none
    best_opportunity := none, total_opportunities := none, all_opportunities := none }

/-- The result of the outer `except` of `screen_stock_for_lst`. -/
def error_result (t msg : String) : ScreeningResult :=
  { base_result t false with reason := some ("Error: " ++ msg) }

/-- Embedding of `screen_stock_for_lst`.  An injected unexpected exception
(`Env.screenFault`) is caught by the outer `try/except`; otherwise the body
runs the quote / price / volume / IV / opportunities ladder.  Totality of this
function models that a failure is never propagated to the caller. -/
def screen_stock_for_lst (t : String) (env : Env) : ScreeningResult :=
  match env.screenFault with
  | some msg => error_result t msg
  | none =>
    match get_stock_quote env with
    | none => { base_result t false with reason := some "Unable to fetch quote" }
    | some quote =>
      let price := quote.price
      let volume_millions := quote.volume / 1000000
      if price < 50 ∨ price > 200 then
        { base_result t false with
          reason := some ("Price $" ++ fmt2 price ++ " outside LST range ($50-$200)")
          price := some (round2 price)
          volume_millions := some (round2 volume_millions) }
      else if volume_millions < 10 then
        { base_result t false with
          reason := some ("Volume " ++ fmt1 volume_millions ++ "M below LST minimum (10M)")
          price := some (round2 price)
          volume_millions := some (round2 volume_millions) }
      else
        let iv := get_stock_iv env price
        let ivc := iv_classify iv
        let opportunities := find_lst_put_opportunities env price
        if opportunities.isEmpty then
          { base_result t false with
            reason := some "No delta 0.20-0.30 puts found in 30-45 DTE range"
            price := some (round2 price)
            volume_millions := some (round2 volume_millions)
            iv := some iv
            iv_status := some ivc.1 }
        else
          { ticker := t
            qualified := ivc.2 && decide (opportunities.length > 0)
            reason := none
            price := some (round2 price)
            volume_millions := some (round2 volume_millions)
            iv := some iv
            iv_status := some ivc.1
            description := some quote.description
            best_opportunity := opportunities.head?
            total_opportunities := some opportunities.length
            all_opportunities := some (opportunities.take 5) }

/-- The best-return sort key component of the batch sort: the best
opportunity's `return_pct`, or 0 when the result has none. -/
def bestReturn (r : ScreeningResult) : ℚ :=
  (r.best_opportunity.map Opportunity.return_pct).getD 0

/-- The batch sort key `(qualified, best return)`. -/
def batch_key (r : ScreeningResult) : Bool × ℚ := (r.qualified, bestReturn r)

/-- Lexicographic order on batch keys, `false < true` on the Bool part. -/
def key_le (a b : Bool × ℚ) : Bool :=
  (!a.1 && b.1) || (a.1 == b.1 && decide (a.2 ≤ b.2))

/-- Sorting comparison of `lst_screen`: `r1` may come before `r2` when its key
is lexicographically at least `r2`'s (descending, stable). -/
def result_le (r1 r2 : ScreeningResult) : Bool := key_le (batch_key r2) (batch_key r1)

/-- The ordered `results` sequence of one `/api/lst/screen` batch response:
each ticker screened sequentially, then the stable descending sort by
`(qualified, best return)`. -/
def lst_screen_results (tickers : List String) (envOf : String → Env) :
    List ScreeningResult :=
  (tickers.map fun t => screen_stock_for_lst t (envOf t)).mergeSort result_le

/-- A screening result is well formed when it carries a reason, or else the
informational fields of a full result (price, IV status, best opportunity and
count); every branch of `screen_stock_for_lst` satisfies this. -/
def WellFormedResult (r : ScreeningResult) : Prop :=
  r.reason.isSome = true ∨
    (r.price.isSome = true ∧ r.iv_status.isSome = true ∧
      r.best_opportunity.isSome = true ∧ r.total_opportunities.isSome = true)

/-- Greeks of the qualifying sample put. -/
def gQ : Greeks := ⟨some (-0.25), some 0.30⟩

/-- A qualifying sample put contract. -/
def putQ : OptionContract := ⟨"put", 55, 1, 2, 500, some gQ⟩

/-- A qualifying sample quote. -/
def quoteQ : StockQuote := ⟨60, 15000000, "Coca-Cola", "KO"⟩

/-- A world in which the sample ticker fully qualifies. -/
def envQ : Env :=
  ⟨.ok quoteQ, .many ["E35"], fun _ => 35, fun _ => .many [putQ], none⟩

/-- The opportunity built from the qualifying sample put. -/
def oppQ : Opportunity := mk_opportunity "E35" 35 60 putQ (-0.25) gQ

/-- A world with two suitable expirations where fetching the second chain
fails with a transport error while the first chain holds a qualifying put. -/
def envC4 : Env :=
  ⟨.missing, .many ["E1", "E2"], fun _ => 35,
    fun s => if s = "E2" then .err "boom" else .many [putQ], none⟩

/-- The opportunity collected from the first expiration of `envC4`. -/
def oppC4 : Opportunity := mk_opportunity "E1" 35 60 putQ (-0.25) gQ

/-- A world whose single suitable expiration's chain holds two identical
band-passing puts at strike 0. -/
def gZ : Greeks := ⟨some (-0.25), none⟩

/-- A band-passing put with strike 0. -/
def putZ : OptionContract := ⟨"put", 0, 1, 2, 10, some gZ⟩

/-- Environment with a chain of two identical strike-0 puts. -/
def envZ : Env :=
  ⟨.missing, .many ["EZ"], fun _ => 35, fun _ => .many [putZ, putZ], none⟩

/-- The opportunity built from the strike-0 put. -/
def oppZ : Opportunity := mk_opportunity "EZ" 35 60 putZ (-0.25) gZ

/-- A world whose screening call hits an injected unexpected exception. -/
def envF : Env := ⟨.missing, .missing, fun _ => 0, fun _ => .missing, some "boom"⟩

/-- A quote whose price is far above the LST band. -/
def quoteP : StockQuote := ⟨250, 5000000, "expensive", "EX"⟩

/-- A world whose quote is out of the price band. -/
def envP : Env := ⟨.ok quoteP, .missing, fun _ => 0, fun _ => .missing, none⟩

/-- A world whose quote request hits a missing payload field. -/
def envM : Env := ⟨.missing, .missing, fun _ => 0, fun _ => .missing, none⟩

theorem rnd_le (q : ℚ) : (rnd q : ℚ) ≤ q + 1/2 := by
  unfold rnd
  split
  · next h =>
    have hq : (⌊q⌋ : ℚ) = q - 1/2 := by
      have := Int.self_sub_fract q
      rw [h] at this
      linarith
    split
    · rw [hq]; linarith
    · push_cast
      rw [hq]; linarith
  · have := abs_sub_round q
    rw [abs_sub_le_iff] at this
    linarith [this.2]

theorem le_rnd (q : ℚ) : q - 1/2 ≤ (rnd q : ℚ) := by
  unfold rnd
  split
  · next h =>
    have hq : (⌊q⌋ : ℚ) = q - 1/2 := by
      have := Int.self_sub_fract q
      rw [h] at this
      linarith
    split
    · rw [hq]
    · push_cast
      rw [hq]; linarith
  · have := abs_sub_round q
    rw [abs_sub_le_iff] at this
    linarith [this.1]

theorem rnd_intCast (n : ℤ) : rnd (n : ℚ) = n := by
  unfold rnd
  rw [Int.fract_intCast]
  simp [round_intCast]

theorem rnd_zero : rnd 0 = 0 := by
  simpa using rnd_intCast 0

theorem opp_le_trans (a b c : Opportunity) (h1 : opp_le a b = true)
    (h2 : opp_le b c = true) : opp_le a c = true := by
  simp only [opp_le, decide_eq_true_eq] at h1 h2 ⊢
  exact le_trans h2 h1

theorem opp_le_total (a b : Opportunity) : (opp_le a b || opp_le b a) = true := by
  simp only [opp_le, Bool.or_eq_true, decide_eq_true_eq]
  exact le_total _ _

theorem key_le_trans (x y z : Bool × ℚ) (h1 : key_le x y = true)
    (h2 : key_le y z = true) : key_le x z = true := by
  rcases x with ⟨xb, xq⟩; rcases y with ⟨yb, yq⟩; rcases z with ⟨zb, zq⟩
  simp only [key_le, Bool.or_eq_true, Bool.and_eq_true, Bool.not_eq_true',
    beq_iff_eq, decide_eq_true_eq] at h1 h2 ⊢
  cases xb <;> cases yb <;> cases zb <;> simp_all
  · exact le_trans h1 h2
  · exact le_trans h1 h2

theorem key_le_total (x y : Bool × ℚ) : (key_le x y || key_le y x) = true := by
  rcases x with ⟨xb, xq⟩; rcases y with ⟨yb, yq⟩
  simp only [key_le, Bool.or_eq_true, Bool.and_eq_true, Bool.not_eq_true',
    beq_iff_eq, decide_eq_true_eq]
  cases xb <;> cases yb <;> simp_all
  · exact le_total xq yq
  · exact le_total xq yq

theorem key_le_refl (x : Bool × ℚ) : key_le x x = true := by
  simp [key_le]

theorem result_le_trans (a b c : ScreeningResult) (h1 : result_le a b = true)
    (h2 : result_le b c = true) : result_le a c = true :=
  key_le_trans _ _ _ h2 h1

theorem result_le_total (a b : ScreeningResult) :
    (result_le a b || result_le b a) = true :=
  key_le_total (batch_key b) (batch_key a)

theorem mergeSort_pair_of_le {α : Type} (le : α → α → Bool)
    (htrans : ∀ a b c, le a b = true → le b c = true → le a c = true)
    (htot : ∀ a b, (le a b || le b a) = true)
    (a b : α) (h : le a b = true) : [a, b].mergeSort le = [a, b] := by
  have hsub : [a, b].Sublist ([a, b].mergeSort le) :=
    List.sublist_mergeSort htrans htot (by simp [h]) (List.Sublist.refl _)
  exact (hsub.eq_of_length (by simp [List.length_mergeSort])).symm

theorem put_band_opps_mem {e : String} {d : ℤ} {price : ℚ}
    {cs : List OptionContract} {L : List Opportunity} {o : Opportunity}
    (hok : put_band_opps e d price cs = .ok L) (ho : o ∈ L) :
    ∃ c ∈ cs, ∃ g d0, c.greeks = some g ∧ g.delta = some d0 ∧
      (0.20 ≤ |d0| ∧ |d0| ≤ 0.30) ∧ o = mk_opportunity e d price c d0 g := by
  induction cs generalizing L with
  | nil =>
    simp only [put_band_opps, Except.ok.injEq] at hok
    subst hok
    simp at ho
  | cons c rest ih =>
    simp only [put_band_opps] at hok
    cases hg : c.greeks with
    | none =>
      simp only [hg] at hok
      obtain ⟨c', hc', rest'⟩ := ih hok ho
      exact ⟨c', List.mem_cons_of_mem _ hc', rest'⟩
    | some g =>
      simp only [hg] at hok
      cases hd : g.delta with
      | none =>
        simp only [hd] at hok
        obtain ⟨c', hc', rest'⟩ := ih hok ho
        exact ⟨c', List.mem_cons_of_mem _ hc', rest'⟩
      | some d0 =>
        simp only [hd] at hok
        by_cases hband : 0.20 ≤ |d0| ∧ |d0| ≤ 0.30
        · rw [if_pos hband] at hok
          by_cases hp : price = 0
          · rw [if_pos hp] at hok
            exact absurd hok (by simp)
          · rw [if_neg hp] at hok
            cases hrest : put_band_opps e d price rest with
            | error msg => rw [hrest] at hok; exact absurd hok (by simp)
            | ok os =>
              rw [hrest] at hok
              simp only [Except.ok.injEq] at hok
              subst hok
              rcases List.mem_cons.mp ho with rfl | ho2
              · exact ⟨c, List.mem_cons_self _ _, g, d0, hg, hd, hband, rfl⟩
              · obtain ⟨c', hc', rest'⟩ := ih hrest ho2
                exact ⟨c', List.mem_cons_of_mem _ hc', rest'⟩
        · rw [if_neg hband] at hok
          obtain ⟨c', hc', rest'⟩ := ih hok ho
          exact ⟨c', List.mem_cons_of_mem _ hc', rest'⟩

theorem put_band_opps_mem_of {e : String} {d : ℤ} {price : ℚ}
    {cs : List OptionContract} {L : List Opportunity} {c : OptionContract}
    {g : Greeks} {d0 : ℚ}
    (hok : put_band_opps e d price cs = .ok L) (hc : c ∈ cs)
    (hg : c.greeks = some g) (hd : g.delta = some d0)
    (hband : 0.20 ≤ |d0| ∧ |d0| ≤ 0.30) :
    mk_opportunity e d price c d0 g ∈ L := by
  induction cs generalizing L with
  | nil => simp at hc
  | cons c' rest ih =>
    simp only [put_band_opps] at hok
    rcases List.mem_cons.mp hc with rfl | hc'
    · simp only [hg, hd, if_pos hband] at hok
      by_cases hp : price = 0
      · rw [if_pos hp] at hok
        exact absurd hok (by simp)
      · rw [if_neg hp] at hok
        cases hrest : put_band_opps e d price rest with
        | error msg => rw [hrest] at hok; exact absurd hok (by simp)
        | ok os =>
          rw [hrest] at hok
          simp only [Except.ok.injEq] at hok
          subst hok
          exact List.mem_cons_self _ _
    · cases hg' : c'.greeks with
      | none =>
        simp only [hg'] at hok
        exact ih hok hc'
      | some g' =>
        simp only [hg'] at hok
        cases hd' : g'.delta with
        | none =>
          simp only [hd'] at hok
          exact ih hok hc'
        | some d0' =>
          simp only [hd'] at hok
          by_cases hband' : 0.20 ≤ |d0'| ∧ |d0'| ≤ 0.30
          · rw [if_pos hband'] at hok
            by_cases hp : price = 0
            · rw [if_pos hp] at hok
              exact absurd hok (by simp)
            · rw [if_neg hp] at hok
              cases hrest : put_band_opps e d price rest with
              | error msg => rw [hrest] at hok; exact absurd hok (by simp)
              | ok os =>
                rw [hrest] at hok
                simp only [Except.ok.injEq] at hok
                subst hok
                exact List.mem_cons_of_mem _ (ih hrest hc')
          · rw [if_neg hband'] at hok
            exact ih hok hc'

theorem collect_opps_mem {env : Env} {price : ℚ} {sds : List (String × ℤ)}
    {L : List Opportunity} {o : Opportunity}
    (hok : collect_opps env price sds = .ok L) (ho : o ∈ L) :
    ∃ sd ∈ sds, ∃ Lc, chain_opps env price sd.1 sd.2 = .ok Lc ∧ o ∈ Lc := by
  induction sds generalizing L with
  | nil =>
    simp only [collect_opps, Except.ok.injEq] at hok
    subst hok
    simp at ho
  | cons sd rest ih =>
    simp only [collect_opps] at hok
    cases hch : chain_opps env price sd.1 sd.2 with
    | error msg => rw [hch] at hok; exact absurd hok (by simp)
    | ok l =>
      rw [hch] at hok
      cases hrest : collect_opps env price rest with
      | error msg => rw [hrest] at hok; exact absurd hok (by simp)
      | ok r =>
        rw [hrest] at hok
        simp only [Except.ok.injEq] at hok
        subst hok
        rcases List.mem_append.mp ho with hol | hor
        · exact ⟨sd, List.mem_cons_self _ _, l, hch, hol⟩
        · obtain ⟨sd', hsd', rest'⟩ := ih hrest hor
          exact ⟨sd', List.mem_cons_of_mem _ hsd', rest'⟩

theorem collect_opps_mem_of {env : Env} {price : ℚ} {sds : List (String × ℤ)}
    {L Lc : List Opportunity} {sd : String × ℤ} {o : Opportunity}
    (hok : collect_opps env price sds = .ok L) (hsd : sd ∈ sds)
    (hch : chain_opps env price sd.1 sd.2 = .ok Lc) (ho : o ∈ Lc) : o ∈ L := by
  induction sds generalizing L with
  | nil => simp at hsd
  | cons sd' rest ih =>
    simp only [collect_opps] at hok
    cases hch' : chain_opps env price sd'.1 sd'.2 with
    | error msg => rw [hch'] at hok; exact absurd hok (by simp)
    | ok l =>
      rw [hch'] at hok
      cases hrest : collect_opps env price rest with
      | error msg => rw [hrest] at hok; exact absurd hok (by simp)
      | ok r =>
        rw [hrest] at hok
        simp only [Except.ok.injEq] at hok
        subst hok
        rcases List.mem_cons.mp hsd with rfl | hsd'
        · rw [hch'] at hch
          simp only [Except.ok.injEq] at hch
          subst hch
          exact List.mem_append.mpr (Or.inl ho)
        · exact List.mem_append.mpr (Or.inr (ih hrest hsd'))

theorem collect_opps_error {env : Env} {price : ℚ} {sds : List (String × ℤ)}
    {sd : String × ℤ} {msg : String}
    (hsd : sd ∈ sds) (hchain : env.chain sd.1 = .err msg) :
    ∃ e, collect_opps env price sds = .error e := by
  induction sds with
  | nil => simp at hsd
  | cons sd' rest ih =>
    simp only [collect_opps]
    cases hch' : chain_opps env price sd'.1 sd'.2 with
    | error m => exact ⟨m, rfl⟩
    | ok l =>
      rcases List.mem_cons.mp hsd with rfl | hsd'
      · rw [chain_opps, hchain] at hch'
        exact absurd hch' (by simp)
      · obtain ⟨e, he⟩ := ih hsd'
        rw [he]
        exact ⟨e, rfl⟩

theorem suitable_expirations_band {env : Env} {sd : String × ℤ}
    (h : sd ∈ suitable_expirations env) :
    sd.1 ∈ get_options_expirations env ∧ sd.2 = env.dte sd.1 ∧
      30 ≤ sd.2 ∧ sd.2 ≤ 45 := by
  simp only [suitable_expirations, List.mem_filterMap] at h
  obtain ⟨s, hs, heq⟩ := h
  by_cases hband : 30 ≤ env.dte s ∧ env.dte s ≤ 45
  · rw [if_pos hband] at heq
    cases heq
    exact ⟨hs, rfl, hband⟩
  · rw [if_neg hband] at heq
    cases heq

theorem suitable_expirations_exps_ne {env : Env}
    (h : suitable_expirations env ≠ []) :
    (get_options_expirations env).isEmpty = false := by
  rcases hs : suitable_expirations env with _ | ⟨sd, rest⟩
  · exact absurd hs h
  · have hmem : sd ∈ suitable_expirations env := by rw [hs]; exact List.mem_cons_self _ _
    obtain ⟨h1, -⟩ := suitable_expirations_band hmem
    rcases he : get_options_expirations env with _ | _
    · rw [he] at h1; simp at h1
    · rfl

theorem find_eq_mergeSort {env : Env} {price : ℚ} {L : List Opportunity}
    (hne : suitable_expirations env ≠ [])
    (hok : collect_opps env price ((suitable_expirations env).take 2) = .ok L) :
    find_lst_put_opportunities env price = L.mergeSort opp_le := by
  unfold find_lst_put_opportunities
  rw [suitable_expirations_exps_ne hne]
  simp only [Bool.false_eq_true, if_false]
  rw [if_neg (by simpa [List.isEmpty_iff] using hne), hok]

theorem find_eq_nil_of_error {env : Env} {price : ℚ} {msg : String}
    (herr : collect_opps env price ((suitable_expirations env).take 2) = .error msg) :
    find_lst_put_opportunities env price = [] := by
  unfold find_lst_put_opportunities
  cases h1 : (get_options_expirations env).isEmpty <;>
    cases h2 : (suitable_expirations env).isEmpty <;>
      simp [herr]

theorem iv_scan_foldl (dte : String → ℤ) (exps : List String) (a : Option String) :
    iv_scan dte exps (a.map fun b => (b, |dte b - 37|)) =
    (List.foldl (List.argAux fun x y => |dte x - 37| < |dte y - 37|) a
      (exps.filter fun s => decide (30 ≤ dte s ∧ dte s ≤ 45))).map
      fun s => (s, |dte s - 37|) := by
  induction exps generalizing a with
  | nil => simp [iv_scan]
  | cons s rest ih =>
    by_cases hband : 30 ≤ dte s ∧ dte s ≤ 45
    · rw [List.filter_cons_of_pos (by simpa using hband), List.foldl_cons]
      cases a with
      | none =>
        have hstep : (List.argAux (fun x y => |dte x - 37| < |dte y - 37|) none s) = some s := rfl
        rw [hstep]
        simp only [iv_scan, if_pos hband, Option.map_none']
        exact ih (some s)
      | some b =>
        by_cases hlt : |dte s - 37| < |dte b - 37|
        · have hstep : (List.argAux (fun x y => |dte x - 37| < |dte y - 37|) (some b) s) = some s := by
            simp [List.argAux, hlt]
          rw [hstep]
          simp only [iv_scan, if_pos hband, Option.map_some']
          rw [if_pos hlt]
          exact ih (some s)
        · have hstep : (List.argAux (fun x y => |dte x - 37| < |dte y - 37|) (some b) s) = some b := by
            simp [List.argAux, hlt]
          rw [hstep]
          simp only [iv_scan, if_pos hband, Option.map_some']
          rw [if_neg hlt]
          exact ih (some b)
    · rw [List.filter_cons_of_neg (by simpa using hband)]
      simp only [iv_scan, if_neg hband]
      exact ih a

theorem iv_scan_eq_spec_pick (dte : String → ℤ) (exps : List String) :
    iv_scan dte exps none =
      (spec_pick_expiration dte exps).map fun s => (s, |dte s - 37|) := by
  have h := iv_scan_foldl dte exps none
  simpa [spec_pick_expiration, List.argmin] using h

theorem iv_values_eq (price : ℚ) (cs : List OptionContract) :
    ((cs.filter fun c => c.option_type == "put").filterMap fun c =>
      if 0.90 * price ≤ c.strike ∧ c.strike ≤ 1.10 * price then
        match c.greeks with
        | none => none
        | some g =>
          match g.mid_iv with
          | none => none
          | some v => if 0.05 ≤ v ∧ v ≤ 2.0 then some v else none
      else none) =
    (((cs.filter fun c => c.option_type == "put").filter fun c =>
        decide (0.90 * price ≤ c.strike ∧ c.strike ≤ 1.10 * price)).filterMap fun c =>
      match c.greeks with
      | none => none
      | some g =>
        match g.mid_iv with
        | none => none
        | some v => if 0.05 ≤ v ∧ v ≤ 2.0 then some v else none) := by
  conv_rhs => rw [List.filterMap_filter]
  apply List.filterMap_congr
  intro c _
  by_cases h : 0.90 * price ≤ c.strike ∧ c.strike ≤ 1.10 * price
  · simp [h]
  · simp [h]

/-- C6: `get_stock_iv` coincides with the spec-side estimator: it selects,
among expirations with DTE in [30, 45], the single one closest to 37 (first
encountered wins ties), averages the implied-volatility values of that
expiration's puts struck within [0.90, 1.10] of the price whose IV lies in
[0.05, 2.0], and returns the mean times 100 rounded to 2 decimals, or absent
when no expiration is in range or no value is collected. -/
theorem get_stock_iv_eq_spec (env : Env) (price : ℚ) :
    get_stock_iv env price = spec_estimate_implied_volatility env price := by
  unfold get_stock_iv spec_estimate_implied_volatility
  cases hexp : (get_options_expirations env).isEmpty with
  | true =>
    have hnil : get_options_expirations env = [] := List.isEmpty_iff.mp hexp
    rw [hnil]
    simp [spec_pick_expiration]
  | false =>
    simp only [hexp, Bool.false_eq_true, if_false]
    rw [iv_scan_eq_spec_pick]
    cases hpick : spec_pick_expiration env.dte (get_options_expirations env) with
    | none => simp
    | some best =>
      simp only [Option.map_some']
      cases hch : env.chain best with
      | err msg => simp [spec_fetch_chain, hch]
      | missing => simp [spec_fetch_chain, hch]
      | single c =>
        simp only [spec_fetch_chain, hch, iv_mean_of]
        rw [iv_values_eq price [c]]
      | many cs =>
        simp only [spec_fetch_chain, hch, iv_mean_of]
        rw [iv_values_eq price cs]

theorem iv_classify_snd (iv : Option ℚ) :
    (iv_classify iv).2 = true ↔ ∃ v, iv = some v ∧ 25 ≤ v ∧ v ≤ 45 := by
  cases iv with
  | none => simp [iv_classify]
  | some v =>
    simp only [iv_classify, Option.some.injEq]
    by_cases h1 : v < 25
    · rw [if_pos h1]
      simp only [Bool.false_eq_true, false_iff, not_exists, not_and]
      rintro v' rfl h25
      intro h45
      linarith
    · rw [if_neg h1]
      by_cases h2 : v > 45
      · rw [if_pos h2]
        simp only [Bool.false_eq_true, false_iff, not_exists, not_and]
        rintro v' rfl h25 h45
        linarith
      · rw [if_neg h2]
        simp only [true_iff]
        exact ⟨v, rfl, by linarith, by linarith⟩

/-- C1: for every ticker, `screen_stock_for_lst` returns a result with
`qualified = true` iff the fetched quote's price lies in [50, 200], its volume
in millions is at least 10, the computed IV is present and lies in [25, 45],
and `find_lst_put_opportunities` returns at least one opportunity; all four
band checks are inclusive at their endpoints. -/
theorem screen_qualified_iff (t : String) (env : Env)
    (hf : env.screenFault = none) :
    (screen_stock_for_lst t env).qualified = true ↔
      ∃ q, get_stock_quote env = some q ∧
        (50 ≤ q.price ∧ q.price ≤ 200) ∧ 10 ≤ q.volume / 1000000 ∧
        (∃ v, get_stock_iv env q.price = some v ∧ 25 ≤ v ∧ v ≤ 45) ∧
        find_lst_put_opportunities env q.price ≠ [] := by
  unfold screen_stock_for_lst
  rw [hf]
  cases hq : get_stock_quote env with
  | none => simp [base_result]
  | some q =>
    simp only [Option.some.injEq]
    by_cases hp : q.price < 50 ∨ q.price > 200
    · rw [if_pos hp]
      simp only [base_result, Bool.false_eq_true, false_iff]
      rintro ⟨q', hq', ⟨h50, h200⟩, -, -, -⟩
      cases hq'
      exact absurd hp (by push_neg; exact ⟨h50, h200⟩)
    · rw [if_neg hp]
      push_neg at hp
      by_cases hv : q.volume / 1000000 < 10
      · rw [if_pos hv]
        simp only [base_result, Bool.false_eq_true, false_iff]
        rintro ⟨q', hq', -, h10, -, -⟩
        cases hq'
        linarith
      · rw [if_neg hv]
        push_neg at hv
        by_cases hop : (find_lst_put_opportunities env q.price).isEmpty
        · rw [if_pos hop]
          simp only [base_result, Bool.false_eq_true, false_iff]
          rintro ⟨q', hq', -, -, -, hD⟩
          cases hq'
          exact hD (List.isEmpty_iff.mp hop)
        · rw [if_neg hop]
          simp only [Bool.and_eq_true, decide_eq_true_eq]
          constructor
          · rintro ⟨hivq, -⟩
            obtain ⟨v, hv', hband⟩ := (iv_classify_snd _).mp hivq
            exact ⟨q, rfl, ⟨hp.1, hp.2⟩, hv, ⟨v, hv', hband⟩,
              fun hnil => by simp [hnil] at hop⟩
          · rintro ⟨q', hq', -, -, hiv, -⟩
            cases hq'
            refine ⟨(iv_classify_snd _).mpr hiv, ?_⟩
            have hne2 : find_lst_put_opportunities env q.price ≠ [] := by
              intro hnil
              simp [hnil] at hop
            exact List.length_pos.mpr hne2

theorem screen_stock_ticker_wf (t : String) (env : Env) :
    (screen_stock_for_lst t env).ticker = t ∧
      WellFormedResult (screen_stock_for_lst t env) := by
  unfold screen_stock_for_lst
  cases hf : env.screenFault with
  | some msg => exact ⟨rfl, Or.inl rfl⟩
  | none =>
    cases hq : get_stock_quote env with
    | none => exact ⟨rfl, Or.inl rfl⟩
    | some q =>
      simp only [WellFormedResult]
      by_cases hp : q.price < 50 ∨ q.price > 200
      · simp only [if_pos hp]
        exact ⟨rfl, Or.inl rfl⟩
      · simp only [if_neg hp]
        by_cases hv : q.volume / 1000000 < 10
        · simp only [if_pos hv]
          exact ⟨rfl, Or.inl rfl⟩
        · simp only [if_neg hv]
          by_cases hop : (find_lst_put_opportunities env q.price).isEmpty
          · simp only [hop, if_true]
            refine ⟨?_, Or.inl ?_⟩ <;> simp [base_result]
          · simp only [hop, Bool.false_eq_true, if_false]
            refine ⟨by simp, Or.inr ⟨by simp, by simp, ?_, by simp⟩⟩
            have hne : find_lst_put_opportunities env q.price ≠ [] := by
              intro hnil
              simp [hnil] at hop
            rcases hfind : find_lst_put_opportunities env q.price with _ | ⟨o, os⟩
            · exact absurd hfind hne
            · simp [hfind]

theorem screen_error_path (t : String) (env : Env) (msg : String)
    (hf : env.screenFault = some msg) :
    screen_stock_for_lst t env = error_result t msg := by
  unfold screen_stock_for_lst
  rw [hf]

/-- C5: whenever the fetched quote's price is below 50 or above 200,
`screen_stock_for_lst` returns exactly the early-exit result: unqualified,
with a reason naming the price band, with rounded price and volume set, and
with no iv, iv_status, description or opportunity fields; the result is a
function of the quote alone, so the IV estimate and the opportunity finder
are never consulted on this path. -/
theorem screen_price_band_exit (t : String) (env : Env) (q : StockQuote)
    (hf : env.screenFault = none) (hq : get_stock_quote env = some q)
    (hp : q.price < 50 ∨ q.price > 200) :
    screen_stock_for_lst t env =
      { base_result t false with
        reason := some ("Price $" ++ fmt2 q.price ++ " outside LST range ($50-$200)")
        price := some (round2 q.price)
        volume_millions := some (round2 (q.volume / 1000000)) } := by
  unfold screen_stock_for_lst
  rw [hf, hq]
  simp only [if_pos hp]

theorem round3_band {x : ℚ} (h1 : 0.20 ≤ x) (h2 : x ≤ 0.30) :
    0.20 ≤ round3 x ∧ round3 x ≤ 0.30 := by
  unfold round3
  have hb1 : (199.5 : ℚ) ≤ (rnd (x * 1000) : ℚ) := le_trans (by linarith) (le_rnd _)
  have hb2 : (rnd (x * 1000) : ℚ) ≤ 300.5 := le_trans (rnd_le _) (by linarith)
  have h199 : (199 : ℤ) < rnd (x * 1000) := by
    exact_mod_cast lt_of_lt_of_le (by norm_num : (199 : ℚ) < 199.5) hb1
  have h301 : rnd (x * 1000) < 301 := by
    exact_mod_cast lt_of_le_of_lt hb2 (by norm_num : (300.5 : ℚ) < 301)
  have h200 : (200 : ℚ) ≤ (rnd (x * 1000) : ℚ) := by exact_mod_cast h199
  have h300 : (rnd (x * 1000) : ℚ) ≤ 300 := by
    have : rnd (x * 1000) ≤ 300 := by omega
    exact_mod_cast this
  constructor <;> linarith

theorem find_mem_inv {env : Env} {price : ℚ} {o : Opportunity}
    (ho : o ∈ find_lst_put_opportunities env price) :
    ∃ L, collect_opps env price ((suitable_expirations env).take 2) = .ok L ∧
      o ∈ L := by
  unfold find_lst_put_opportunities at ho
  by_cases h1 : (get_options_expirations env).isEmpty
  · rw [if_pos h1] at ho; simp at ho
  · rw [if_neg h1] at ho
    by_cases h2 : (suitable_expirations env).isEmpty
    · rw [if_pos h2] at ho; simp at ho
    · rw [if_neg h2] at ho
      cases hc : collect_opps env price ((suitable_expirations env).take 2) with
      | error msg => rw [hc] at ho; simp at ho
      | ok L =>
        rw [hc] at ho
        exact ⟨L, rfl, (List.mergeSort_perm L opp_le).mem_iff.mp ho⟩

/-- C2: every opportunity produced by `find_lst_put_opportunities` comes from
a put contract carrying a delta whose absolute value lies in [0.20, 0.30],
belongs to an expiration with DTE in [30, 45], and its stored `mid_price`,
`premium_per_contract`, `capital_at_risk` and `return_pct` fields are the
2-decimal roundings of `(bid+ask)/2`, `mid*100`, `strike*100` and
`premium/capital*100` (the stored delta is the 3-decimal rounding of the
absolute delta, still inside the band). -/
theorem find_opportunity_provenance (env : Env) (price : ℚ) (o : Opportunity)
    (ho : o ∈ find_lst_put_opportunities env price) :
    ∃ sd ∈ (suitable_expirations env).take 2,
      ∃ c ∈ (env.chain sd.1).contracts, ∃ g d0,
        c.option_type = "put" ∧ c.greeks = some g ∧ g.delta = some d0 ∧
        0.20 ≤ |d0| ∧ |d0| ≤ 0.30 ∧
        o = mk_opportunity sd.1 sd.2 price c d0 g ∧
        0.20 ≤ o.delta ∧ o.delta ≤ 0.30 ∧ 30 ≤ o.dte ∧ o.dte ≤ 45 ∧
        o.mid_price = round2 ((c.bid + c.ask) / 2) ∧
        o.premium_per_contract = round2 ((c.bid + c.ask) / 2 * 100) ∧
        o.capital_at_risk = round2 (c.strike * 100) ∧
        o.return_pct = round2 (if c.strike * 100 > 0
          then (c.bid + c.ask) / 2 * 100 / (c.strike * 100) * 100 else 0) := by
  obtain ⟨L, hok, hoL⟩ := find_mem_inv ho
  obtain ⟨sd, hsd, Lc, hch, hoLc⟩ := collect_opps_mem hok hoL
  have hput : ∃ cs0, (env.chain sd.1).contracts = cs0 ∧
      put_band_opps sd.1 sd.2 price (cs0.filter fun c => c.option_type == "put") =
        .ok Lc := by
    unfold chain_opps at hch
    cases hc : env.chain sd.1 with
    | err msg => rw [hc] at hch; exact absurd hch (by simp)
    | missing =>
      rw [hc] at hch
      simp only [Except.ok.injEq] at hch
      exact ⟨[], rfl, by simp [put_band_opps, hch]⟩
    | single c => rw [hc] at hch; exact ⟨[c], rfl, hch⟩
    | many cs => rw [hc] at hch; exact ⟨cs, rfl, hch⟩
  obtain ⟨cs0, hcs0, hpb⟩ := hput
  obtain ⟨c, hcmem, g, d0, hg, hd, hband, heq⟩ := put_band_opps_mem hpb hoLc
  obtain ⟨hc_cs, hc_put⟩ := List.mem_filter.mp hcmem
  obtain ⟨hsdband1, hsdband2⟩ := (suitable_expirations_band (List.mem_of_mem_take hsd)).2.2
  have hdelta : o.delta = round3 |d0| := by rw [heq]; rfl
  have hdte : o.dte = sd.2 := by rw [heq]; rfl
  obtain ⟨hd1, hd2⟩ := round3_band hband.1 hband.2
  refine ⟨sd, hsd, c, hcs0 ▸ hc_cs, g, d0, by simpa using hc_put, hg, hd,
    hband.1, hband.2, heq, ?_, ?_, ?_, ?_, ?_, ?_, ?_, ?_⟩
  · rw [hdelta]; exact hd1
  · rw [hdelta]; exact hd2
  · rw [hdte]; exact hsdband1
  · rw [hdte]; exact hsdband2
  · rw [heq]; rfl
  · rw [heq]; rfl
  · rw [heq]; rfl
  · rw [heq]; rfl

theorem round2_zero : round2 0 = 0 := by
  unfold round2
  rw [show (0 : ℚ) * 100 = ((0 : ℤ) : ℚ) by norm_num, rnd_intCast]
  norm_num

/-- C8: for every input, the sequence returned by
`find_lst_put_opportunities` is sorted non-increasing by `return_pct`, and
the sort is stable: opportunities with equal `return_pct` appear in the order
they were collected. -/
theorem find_sorted_and_stable (env : Env) (price : ℚ) :
    List.Pairwise (fun a b : Opportunity => b.return_pct ≤ a.return_pct)
      (find_lst_put_opportunities env price) ∧
    ∀ L a b, collect_opps env price ((suitable_expirations env).take 2) = .ok L →
      [a, b].Sublist L → a.return_pct = b.return_pct →
      [a, b].Sublist (find_lst_put_opportunities env price) := by
  constructor
  · unfold find_lst_put_opportunities
    by_cases h1 : (get_options_expirations env).isEmpty
    · simp [h1]
    · rw [if_neg h1]
      by_cases h2 : (suitable_expirations env).isEmpty
      · simp [h2]
      · rw [if_neg h2]
        cases hc : collect_opps env price ((suitable_expirations env).take 2) with
        | error msg => simp
        | ok L =>
          have h := List.sorted_mergeSort opp_le_trans opp_le_total L
          exact h.imp fun hab => by
            simpa only [opp_le, decide_eq_true_eq] using hab
  · intro L a b hok hsub heq
    by_cases h2 : suitable_expirations env = []
    · rw [h2] at hok
      simp only [List.take_nil, collect_opps, Except.ok.injEq] at hok
      subst hok
      have := hsub.length_le
      simp at this
    · rw [find_eq_mergeSort h2 hok]
      have hpair : List.Pairwise (fun x y => opp_le x y = true) [a, b] :=
        List.Pairwise.cons
          (fun y hy => by
            rw [List.mem_singleton] at hy
            subst hy
            simp [opp_le, heq])
          (List.Pairwise.cons (fun y hy => by simp at hy) List.Pairwise.nil)
      exact List.sublist_mergeSort opp_le_trans opp_le_total hpair hsub

theorem result_le_iff (r1 r2 : ScreeningResult) :
    result_le r1 r2 = true ↔
      (r1.qualified = true ∧ r2.qualified = false) ∨
      (r1.qualified = r2.qualified ∧ bestReturn r2 ≤ bestReturn r1) := by
  simp only [result_le, key_le, batch_key, Bool.or_eq_true, Bool.and_eq_true,
    Bool.not_eq_true', beq_iff_eq, decide_eq_true_eq]
  cases h1 : r1.qualified <;> cases h2 : r2.qualified <;> simp

/-- C7: in every batch response, any result ordered before another is either
qualified while the later one is not, or has equal qualification and a best
return (0 when the result has no best opportunity) at least the later one's;
results with equal sort keys keep their pre-sort order. -/
theorem lst_screen_sorted_and_stable (tickers : List String) (envOf : String → Env) :
    List.Pairwise (fun r1 r2 : ScreeningResult =>
        (r1.qualified = true ∧ r2.qualified = false) ∨
        (r1.qualified = r2.qualified ∧ bestReturn r2 ≤ bestReturn r1))
      (lst_screen_results tickers envOf) ∧
    ∀ r1 r2,
      [r1, r2].Sublist (tickers.map fun t => screen_stock_for_lst t (envOf t)) →
      batch_key r1 = batch_key r2 →
      [r1, r2].Sublist (lst_screen_results tickers envOf) := by
  constructor
  · have h := List.sorted_mergeSort result_le_trans result_le_total
      (tickers.map fun t => screen_stock_for_lst t (envOf t))
    exact h.imp fun hab => (result_le_iff _ _).mp hab
  · intro r1 r2 hsub hkey
    have h12 : result_le r1 r2 = true := by
      unfold result_le
      rw [hkey]
      exact key_le_refl _
    have hpair : List.Pairwise (fun x y => result_le x y = true) [r1, r2] :=
      List.Pairwise.cons
        (fun y hy => by
          rw [List.mem_singleton] at hy
          subst hy
          exact h12)
        (List.Pairwise.cons (fun y hy => by simp at hy) List.Pairwise.nil)
    exact List.sublist_mergeSort result_le_trans result_le_total hpair hsub

/-- C4 (amended): an upstream transport failure while fetching the options
chain of any of the (up to two) qualifying expirations is caught only by the
finder's outer exception handler, so `find_lst_put_opportunities` returns the
empty list, discarding opportunities already collected from the other fetched
expiration. -/
theorem find_empty_on_chain_error (env : Env) (price : ℚ) (s : String) (d : ℤ)
    (msg : String) (hsd : (s, d) ∈ (suitable_expirations env).take 2)
    (hchain : env.chain s = .err msg) :
    find_lst_put_opportunities env price = [] := by
  obtain ⟨e, he⟩ := collect_opps_error hsd hchain
  exact find_eq_nil_of_error he

theorem collect_opps_ok_of_mem {env : Env} {price : ℚ} {sds : List (String × ℤ)}
    {sd : String × ℤ} {L : List Opportunity}
    (hok : collect_opps env price sds = .ok L) (hsd : sd ∈ sds) :
    ∃ Lc, chain_opps env price sd.1 sd.2 = .ok Lc := by
  induction sds generalizing L with
  | nil => simp at hsd
  | cons sd' rest ih =>
    simp only [collect_opps] at hok
    cases hch' : chain_opps env price sd'.1 sd'.2 with
    | error msg => rw [hch'] at hok; exact absurd hok (by simp)
    | ok l =>
      rw [hch'] at hok
      cases hrest : collect_opps env price rest with
      | error msg => rw [hrest] at hok; exact absurd hok (by simp)
      | ok r =>
        rcases List.mem_cons.mp hsd with rfl | hsd'
        · exact ⟨l, hch'⟩
        · exact ih hrest hsd'

theorem chain_opps_ok_inv {env : Env} {price : ℚ} {s : String} {d : ℤ}
    {Lc : List Opportunity} (hch : chain_opps env price s d = .ok Lc) :
    put_band_opps s d price
      (((env.chain s).contracts).filter fun c => c.option_type == "put") = .ok Lc := by
  unfold chain_opps at hch
  cases hc : env.chain s with
  | err msg => rw [hc] at hch; exact absurd hch (by simp)
  | missing =>
    rw [hc] at hch
    simp only [Except.ok.injEq] at hch
    subst hch
    rfl
  | single c => rw [hc] at hch; exact hch
  | many cs => rw [hc] at hch; exact hch

/-- C10: a put with strike 0 that passes the delta band does not make the
finder fail on division by zero: the `return_pct` division by
`capital_at_risk` is guarded, the resulting opportunity carries
`return_pct = 0` (and `capital_at_risk = 0`), and it is still collected into
the finder's output. -/
theorem find_strike_zero_collected (env : Env) (price : ℚ) (sd : String × ℤ)
    (c : OptionContract) (g : Greeks) (d0 : ℚ) (L : List Opportunity)
    (hsd : sd ∈ (suitable_expirations env).take 2)
    (hc : c ∈ (env.chain sd.1).contracts)
    (hput : c.option_type = "put")
    (hg : c.greeks = some g) (hd : g.delta = some d0)
    (hband : 0.20 ≤ |d0| ∧ |d0| ≤ 0.30)
    (hstrike : c.strike = 0)
    (hok : collect_opps env price ((suitable_expirations env).take 2) = .ok L) :
    ∃ o ∈ find_lst_put_opportunities env price,
      o.strike = 0 ∧ o.capital_at_risk = 0 ∧ o.return_pct = 0 := by
  obtain ⟨Lc, hch⟩ := collect_opps_ok_of_mem hok hsd
  have hpb := chain_opps_ok_inv hch
  have hcf : c ∈ ((env.chain sd.1).contracts).filter fun c => c.option_type == "put" :=
    List.mem_filter.mpr ⟨hc, by simp [hput]⟩
  have hmem := put_band_opps_mem_of hpb hcf hg hd hband
  have hmemL := collect_opps_mem_of hok hsd hch hmem
  have hsne : suitable_expirations env ≠ [] := by
    intro hnil
    rw [hnil] at hsd
    simp at hsd
  refine ⟨mk_opportunity sd.1 sd.2 price c d0 g, ?_, ?_, ?_, ?_⟩
  · rw [find_eq_mergeSort hsne hok]
    exact (List.mergeSort_perm L opp_le).mem_iff.mpr hmemL
  · simp [mk_opportunity, hstrike, round2_zero]
  · simp [mk_opportunity, hstrike, round2_zero]
  · simp [mk_opportunity, hstrike, round2_zero]

theorem round2_intCast (n : ℤ) : round2 ((n : ℚ)) = n := by
  unfold round2
  rw [show ((n : ℚ) * 100) = (((n * 100 : ℤ) : ℚ)) by push_cast; ring, rnd_intCast]
  rw [Int.cast_mul]
  norm_num

theorem suitable_envQ : suitable_expirations envQ = [("E35", 35)] := by
  simp [suitable_expirations, get_options_expirations, envQ]

theorem abs_neg_qtr : |(-0.25 : ℚ)| = 0.25 := by
  rw [abs_neg, abs_of_nonneg (by norm_num : (0 : ℚ) ≤ 0.25)]

theorem chain_opps_envQ : chain_opps envQ 60 "E35" 35 = .ok [oppQ] := by
  have hband : (0.20 : ℚ) ≤ |(-0.25 : ℚ)| ∧ |(-0.25 : ℚ)| ≤ 0.30 := by
    rw [abs_neg_qtr]; norm_num
  unfold chain_opps
  simp only [envQ]
  have hfil : [putQ].filter (fun c => c.option_type == "put") = [putQ] := by
    simp [putQ]
  rw [hfil]
  simp only [put_band_opps, putQ, gQ, if_pos hband,
    if_neg (by norm_num : ¬(60 : ℚ) = 0)]
  simp [oppQ, putQ, gQ]

theorem collect_envQ :
    collect_opps envQ 60 ((suitable_expirations envQ).take 2) = .ok [oppQ] := by
  rw [suitable_envQ]
  simp only [List.take, collect_opps, chain_opps_envQ]
  simp

theorem find_envQ : find_lst_put_opportunities envQ 60 = [oppQ] := by
  rw [find_eq_mergeSort (by simp [suitable_envQ]) collect_envQ]
  exact List.mergeSort_singleton oppQ

theorem round2_thirty : round2 30 = 30 := by
  have h := round2_intCast 30
  norm_num at h
  exact h

theorem iv_envQ : get_stock_iv envQ 60 = some 30 := by
  unfold get_stock_iv
  simp only [envQ, get_options_expirations]
  rw [if_neg (by simp)]
  have hscan : iv_scan (fun _ => (35 : ℤ)) ["E35"] none = some ("E35", 2) := by
    simp [iv_scan]
  rw [hscan]
  simp only [iv_mean_of]
  have hfil : [putQ].filter (fun c => c.option_type == "put") = [putQ] := by
    simp [putQ]
  rw [hfil]
  have hwin : (0.90 : ℚ) * 60 ≤ 55 ∧ (55 : ℚ) ≤ 1.10 * 60 := by norm_num
  have hsane : (0.05 : ℚ) ≤ 0.30 ∧ (0.30 : ℚ) ≤ 2.0 := by norm_num
  simp only [List.filterMap, putQ, gQ, if_pos hwin, if_pos hsane]
  simp only [List.isEmpty, List.sum_cons, List.sum_nil, List.length_cons,
    List.length_nil]
  norm_num [round2_thirty]

theorem suitable_envC4 : suitable_expirations envC4 = [("E1", 35), ("E2", 35)] := by
  simp [suitable_expirations, get_options_expirations, envC4]

theorem chain_envC4_E2 : envC4.chain "E2" = .err "boom" := by
  simp [envC4]

theorem chain_opps_envC4_E1 : chain_opps envC4 60 "E1" 35 = .ok [oppC4] := by
  have hband : (0.20 : ℚ) ≤ |(-0.25 : ℚ)| ∧ |(-0.25 : ℚ)| ≤ 0.30 := by
    rw [abs_neg_qtr]; norm_num
  unfold chain_opps
  have hch : envC4.chain "E1" = .many [putQ] := by simp [envC4]
  simp only [hch]
  have hfil : [putQ].filter (fun c => c.option_type == "put") = [putQ] := by
    simp [putQ]
  rw [hfil]
  simp only [put_band_opps, putQ, gQ, if_pos hband,
    if_neg (by norm_num : ¬(60 : ℚ) = 0)]
  simp [oppC4, putQ, gQ]

theorem find_envC4 : find_lst_put_opportunities envC4 60 = [] := by
  have hsd : (("E2", 35) : String × ℤ) ∈ (suitable_expirations envC4).take 2 := by
    simp [suitable_envC4]
  obtain ⟨e, he⟩ := @collect_opps_error envC4 60 _ ("E2", 35) "boom" hsd chain_envC4_E2
  exact find_eq_nil_of_error he

theorem suitable_envZ : suitable_expirations envZ = [("EZ", 35)] := by
  simp [suitable_expirations, get_options_expirations, envZ]

theorem chain_opps_envZ : chain_opps envZ 60 "EZ" 35 = .ok [oppZ, oppZ] := by
  have hband : (0.20 : ℚ) ≤ |(-0.25 : ℚ)| ∧ |(-0.25 : ℚ)| ≤ 0.30 := by
    rw [abs_neg_qtr]; norm_num
  unfold chain_opps
  have hch : envZ.chain "EZ" = .many [putZ, putZ] := by simp [envZ]
  simp only [hch]
  have hfil : [putZ, putZ].filter (fun c => c.option_type == "put") = [putZ, putZ] := by
    simp [putZ]
  rw [hfil]
  simp only [put_band_opps, putZ, gZ, if_pos hband,
    if_neg (by norm_num : ¬(60 : ℚ) = 0)]
  simp [oppZ, putZ, gZ]

theorem collect_envZ :
    collect_opps envZ 60 ((suitable_expirations envZ).take 2) = .ok [oppZ, oppZ] := by
  rw [suitable_envZ]
  simp only [List.take, collect_opps, chain_opps_envZ]
  simp

/-- C3: `screen_stock_for_lst` never raises: it is a total function of the
upstream world, every result carries the requested ticker and is well formed,
and an unexpected exception injected into its body is converted into an
unqualified result whose reason is `Error: <message>`, never propagated. -/
theorem screen_never_raises (t : String) (env : Env) :
    (screen_stock_for_lst t env).ticker = t ∧
      WellFormedResult (screen_stock_for_lst t env) ∧
      ∀ msg, env.screenFault = some msg →
        screen_stock_for_lst t env = error_result t msg :=
  ⟨(screen_stock_ticker_wf t env).1, (screen_stock_ticker_wf t env).2,
    fun msg hf => screen_error_path t env msg hf⟩

/-- C9: `get_stock_quote` never raises to its caller (it is total), and any
response that is a transport error or malformed payload (`err`) or that lacks
the quote field (`missing`) yields an absent quote. -/
theorem get_stock_quote_absorbs_failures (env : Env)
    (h : (∃ msg, env.quote = .err msg) ∨ env.quote = .missing) :
    get_stock_quote env = none := by
  rcases h with ⟨msg, hm⟩ | hm <;> simp [get_stock_quote, hm]

/-- C4 (counterexample): in `envC4` the second qualifying expiration's chain
fetch is a transport error while the first chain yields one opportunity, yet
`find_lst_put_opportunities` returns the empty list, not the collected
opportunity — refuting the claim that such a failure is absorbed for that
expiration only. -/
theorem find_chain_error_counterexample :
    envC4.chain "E2" = ChainResp.err "boom" ∧
    ("E2", (35 : ℤ)) ∈ (suitable_expirations envC4).take 2 ∧
    chain_opps envC4 60 "E1" 35 = .ok [oppC4] ∧
    find_lst_put_opportunities envC4 60 = [] ∧
    oppC4 ∉ find_lst_put_opportunities envC4 60 := by
  refine ⟨chain_envC4_E2, by simp [suitable_envC4], chain_opps_envC4_E1,
    find_envC4, ?_⟩
  rw [find_envC4]
  simp

theorem screen_qualified_iff_witness :
    (screen_stock_for_lst "KO" envQ).qualified = true :=
  (screen_qualified_iff "KO" envQ rfl).mpr
    ⟨quoteQ, rfl, ⟨by norm_num [quoteQ], by norm_num [quoteQ]⟩,
      by norm_num [quoteQ],
      ⟨30, iv_envQ, by norm_num, by norm_num⟩,
      by
        show find_lst_put_opportunities envQ (60 : ℚ) ≠ []
        rw [find_envQ]
        simp⟩

theorem find_opportunity_provenance_witness :
    oppQ ∈ find_lst_put_opportunities envQ 60 ∧
      0.20 ≤ oppQ.delta ∧ oppQ.delta ≤ 0.30 := by
  have hmem : oppQ ∈ find_lst_put_opportunities envQ 60 := by
    rw [find_envQ]
    simp
  obtain ⟨sd, hsd, c, hc, g, d0, hput, hg, hd, hb1, hb2, heq, hd1, hd2, hrest⟩ :=
    find_opportunity_provenance envQ 60 oppQ hmem
  exact ⟨hmem, hd1, hd2⟩

theorem screen_never_raises_witness :
    screen_stock_for_lst "X" envF = error_result "X" "boom" :=
  (screen_never_raises "X" envF).2.2 "boom" rfl

theorem find_empty_on_chain_error_witness :
    find_lst_put_opportunities envC4 60 = [] :=
  find_empty_on_chain_error envC4 60 "E2" 35 "boom"
    (by simp [suitable_envC4]) chain_envC4_E2

theorem screen_price_band_exit_witness :
    screen_stock_for_lst "EX" envP =
      { base_result "EX" false with
        reason := some ("Price $" ++ fmt2 quoteP.price ++ " outside LST range ($50-$200)")
        price := some (round2 quoteP.price)
        volume_millions := some (round2 (quoteP.volume / 1000000)) } :=
  screen_price_band_exit "EX" envP quoteP rfl rfl (Or.inr (by norm_num [quoteP]))

theorem lst_screen_sorted_and_stable_witness :
    [screen_stock_for_lst "A" envF, screen_stock_for_lst "B" envF].Sublist
      (lst_screen_results ["A", "B"] fun _ => envF) :=
  (lst_screen_sorted_and_stable ["A", "B"] fun _ => envF).2
    (screen_stock_for_lst "A" envF) (screen_stock_for_lst "B" envF)
    (List.Sublist.refl _) rfl

theorem find_sorted_and_stable_witness :
    [oppZ, oppZ].Sublist (find_lst_put_opportunities envZ 60) :=
  (find_sorted_and_stable envZ 60).2 [oppZ, oppZ] oppZ oppZ collect_envZ
    (List.Sublist.refl _) rfl

theorem get_stock_quote_absorbs_failures_witness :
    get_stock_quote envM = none :=
  get_stock_quote_absorbs_failures envM (Or.inr rfl)

theorem find_strike_zero_collected_witness :
    ∃ o ∈ find_lst_put_opportunities envZ 60,
      o.strike = 0 ∧ o.capital_at_risk = 0 ∧ o.return_pct = 0 :=
  find_strike_zero_collected envZ 60 ("EZ", 35) putZ gZ (-0.25) [oppZ, oppZ]
    (by simp [suitable_envZ]) (by simp [envZ, ChainResp.contracts]) rfl rfl rfl
    (by rw [abs_neg_qtr]; norm_num) rfl collect_envZ
